import Mathlib

/-!
# Verification of the archlog version-reconciliation engine

Shallow embedding of the core of `archlog` (`PackageHandler` and the three
platform API clients), together with theorems checking the specification's
claims about it.

Python strings are embedded as Lean `String`s (lists of characters);
Python `Optional` results become `Option`; a Python exception that escapes
a function is modelled by `Except Unit` (the `.error ()` value).  Network
effects (HTTP requests, scraping) are modelled by oracle parameters: the
embedded control flow receives the collaborators' answers as explicit
function arguments.

The file is organised as: all definitions first, then all theorems.
-/

namespace Archlog

/-! ## String helpers (embedding Python primitives) -/

/-- Python `s.count("-")`: number of `-` characters in the string. -/
def countDash (l : List Char) : Nat :=
  (l.filter (fun c => c = '-')).length

/-- Python `s.split("-")` on a character list: split at every `-`,
keeping empty segments (so the result always has `countDash l + 1` parts). -/
def splitDash : List Char → List (List Char)
  | [] => [[]]
  | c :: rest =>
    let r := splitDash rest
    if c = '-' then [] :: r
    else
      match r with
      | [] => [[c]]
      | h :: t => (c :: h) :: t

/-- Python `s.split("-")` lifted to `String`. -/
def pySplitDash (s : String) : List String :=
  (splitDash s.data).map String.mk

/-- Number of `-` characters of a `String`. -/
def strCountDash (s : String) : Nat := countDash s.data

/-- Epoch-colon normalization as performed in
`PackageHandler.find_intermediate_tags` (package_handler.py, lines 1523-1524):
Python `tag.replace(":", "-")`, i.e. every colon becomes a dash. -/
def normalizeColon (s : String) : String :=
  String.mk (s.data.map (fun c => if c = ':' then '-' else c))

/-- The `"1:"` → `"1-"` rewrite of `PackageHandler.get_package_tags`
(package_handler.py, line 875), Python `tag.replace("1:", "1-")`, on a
character list.  `str.replace` scans left to right over non-overlapping
occurrences; since the pattern and replacement have the same length this is
the following recursion. -/
def replaceOneColonAux : List Char → List Char
  | [] => []
  | [c] => [c]
  | c1 :: c2 :: rest =>
    if c1 = '1' ∧ c2 = ':' then '1' :: '-' :: replaceOneColonAux rest
    else c1 :: replaceOneColonAux (c2 :: rest)

/-- Python `tag.replace("1:", "1-")` on a `String`. -/
def replaceOneColon (s : String) : String :=
  String.mk (replaceOneColonAux s.data)

/-! ## Version Tag Model -/

/-- Embedding of `PackageHandler.split_package_tag`
(src/src/archlog/package_handler.py, lines 207-240).

```python
tag_parts_count = tag.count("-") + 1
tag_parts = tag.split("-")[:tag_parts_count]
if tag_parts_count >= 3:
    tag_part_suffix = tag_parts[0]
    tag_part_main = tag_parts[1]
else:
    if len(tag_parts[0]) < len(tag_parts[1]):
        tag_part_suffix = tag_parts[0]
        tag_part_main = tag_parts[1]
    else:
        tag_part_suffix = tag_parts[1]
        tag_part_main = tag_parts[0]
return tag_part_main, tag_part_suffix
```

A `none` result models Python raising `IndexError` on the list indexing
(`tag_parts[1]` when the tag has no dash). -/
def split_package_tag (tag : String) : Option (String × String) :=
  let tag_parts_count := strCountDash tag + 1
  let tag_parts := (pySplitDash tag).take tag_parts_count
  if tag_parts_count ≥ 3 then
    match tag_parts[0]?, tag_parts[1]? with
    | some s, some m => some (m, s)
    | _, _ => none
  else
    match tag_parts[0]?, tag_parts[1]? with
    | some p0, some p1 =>
      if p0.length < p1.length then some (p1, p0) else some (p0, p1)
    | _, _ => none

/-! ## Intermediate Tag Walker: find_intermediate_tags -/

/-- The scanning loop of `PackageHandler.find_intermediate_tags`
(package_handler.py, lines 1526-1533): for each index, if the release equals
the normalized current tag, `end_index` is (re)assigned; `elif` it equals the
normalized new tag, `start_index` is (re)assigned; the loop breaks as soon as
both are set.  Returns `(start_index, end_index)`. -/
def findTagIndices (cur nw : String) : Nat → Option Nat → Option Nat →
    List String → Option Nat × Option Nat
  | _, si, ei, [] => (si, ei)
  | idx, si, ei, t :: rest =>
    let p : Option Nat × Option Nat :=
      if t = cur then (si, some idx)
      else if t = nw then (some idx, ei)
      else (si, ei)
    if p.1.isSome ∧ p.2.isSome then p
    else findTagIndices cur nw (idx + 1) p.1 p.2 rest

/-- Embedding of `PackageHandler.find_intermediate_tags`
(package_handler.py, lines 1505-1553): normalizes both tags with
`replace(":", "-")`, locates their indices in the (newest-first) tag list,
returns `none` if either is missing, otherwise takes the slice strictly
between the two indices (`package_tags[start_index + 1 : end_index]`),
and returns it reversed — or `none` if that slice is empty. -/
def find_intermediate_tags (package_tags : List String)
    (current_tag new_tag : String) : Option (List String) :=
  let current_tag_altered := normalizeColon current_tag
  let new_tag_altered := normalizeColon new_tag
  match findTagIndices current_tag_altered new_tag_altered 0 none none package_tags with
  | (some si, some ei) =>
    let intermediate_tags := (package_tags.drop (si + 1)).take (ei - (si + 1))
    if intermediate_tags = [] then none else some intermediate_tags.reverse
  | _ => none

/-- The behaviour claimed by the spec for `findIntermediate`, written from the
spec's words (for the refutation of claim C3): the slice strictly between the
first position of the normalized new tag and the first position of the
normalized current tag, reversed; `none` exactly when either tag is absent. -/
def specFindIntermediate (package_tags : List String)
    (current_tag new_tag : String) : Option (List String) :=
  let cur := normalizeColon current_tag
  let nw := normalizeColon new_tag
  if cur ∈ package_tags ∧ nw ∈ package_tags then
    let ei := package_tags.indexOf cur
    let si := package_tags.indexOf nw
    some ((package_tags.drop (si + 1)).take (ei - (si + 1))).reverse
  else none

/-! ## Release classification -/

/-- Release type of a changelog entry (cf. spec §3 `ReleaseType`). -/
inductive ReleaseType where
  | minor
  | major
  | arch
  | unknown
deriving DecidableEq, Repr

/-- The release classification branch structure shared by
`PackageHandler.get_package_changelog` (package_handler.py, lines 361, 395-399)
and `PackageHandler.handle_intermediate_tags` (lines 478, 495, 522-523),
applied to the already-derived main/suffix parts of the two versions:
equal mains and different suffixes → minor; different mains → major;
otherwise no release (`none`, the `else: continue` / no-branch case). -/
def classifyRelease (firstMain firstSuffix secondMain secondSuffix : String) :
    Option ReleaseType :=
  if firstMain = secondMain ∧ firstSuffix ≠ secondSuffix then some .minor
  else if firstMain ≠ secondMain then some .major
  else none

/-! ## Changelog Aggregator

`PackageHandler.get_package_changelog` and
`PackageHandler.handle_intermediate_tags` are long branching procedures whose
external calls (HTTP fetches, scraping, `pacman`) are modelled by oracle
fields of `AggregatorEnv`.  A changelog entry is kept opaque (`Entry`). -/

/-- Opaque changelog entry (the code's 5/6-tuples; their internal structure is
irrelevant to the claims). -/
abbrev Entry := String

/-- The fields of the `package_info` namedtuple produced by
`PackageHandler.split_package_information` (package_handler.py, 191-205). -/
structure PkgInfo where
  package_name : String
  package_description : String
  package_base : String
  package_upstream_url_overview : String
  current_version : String
  current_version_altered : String
  new_version : String
  new_version_altered : String
  current_main : String
  current_main_altered : String
  new_main : String
  current_suffix : String
  new_suffix : String
deriving DecidableEq, Repr

/-- Oracle for the external collaborators of
`PackageHandler.get_package_changelog` (package_handler.py, lines 242-419).
Each field is the answer the corresponding call would return:

* `splitInfo` — `split_package_information` (line 264);
* `arch_package_repository` — `get_package_repository` (277-279), an empty
  list being Python-falsy;
* `package_source_files_url` — `archlinux_api.get_gitlab_package_url` (295),
  which always returns a string;
* `arch_package_tags` — `get_package_tags` (304-308);
* `package_upstream_url_nvchecker` — the combined outcome of
  `gitlab_api.get_file_content` + `extract_upstream_url_nvchecker` (321-328);
* `compare src tag_from tag_to name rtype override` —
  `get_changelog_compare_package_tags` (its six leading arguments);
* `upstream url cur new name override` —
  `get_package_changelog_upstream_source` (its distinguishing arguments). -/
structure AggregatorEnv where
  splitInfo : Option PkgInfo
  arch_package_repository : List String
  package_source_files_url : String
  arch_package_tags : Option (List String)
  package_upstream_url_nvchecker : Option String
  compare : String → String → String → String → String → Option String →
    Option (List Entry)
  upstream : String → String → String → String → Option String →
    Option (List Entry)

/-- Python `if temp: changelog += temp` — `None` and `[]` both add nothing. -/
def addEntries (temp : Option (List Entry)) : List Entry :=
  match temp with
  | some l => l
  | none => []

/-- Lift an `Option` to `Except Unit`: `none` models a raised exception. -/
def liftOpt : Option α → Except Unit α
  | some a => .ok a
  | none => .error ()

/-- The inline derivation of `second_compare_main` / `second_compare_suffix`
in `PackageHandler.handle_intermediate_tags` (package_handler.py, 464-471):

```python
if release.count("-") >= 2:
    second_compare_main = release.split("-")[0].replace("1:", "1-")
    second_compare_suffix = release.split("-")[2]
else:
    second_compare_main = release.split("-")[0].replace("1:", "1-")
    second_compare_suffix = release.split("-")[1]
```

`.error ()` models the `IndexError` raised when the tag has no dash. -/
def secondCompareParts (release : String) : Except Unit (String × String) :=
  let parts := pySplitDash release
  if strCountDash release ≥ 2 then
    match parts[0]?, parts[2]? with
    | some m, some s => .ok (replaceOneColon m, s)
    | _, _ => .error ()
  else
    match parts[0]?, parts[1]? with
    | some m, some s => .ok (replaceOneColon m, s)
    | _, _ => .error ()

/-- The `for index, (release) in enumerate(intermediate_tags)` loop of
`handle_intermediate_tags` (package_handler.py, 455-523), carrying the
`first_compare_main/suffix/version` values of the current iteration.  Returns
the accumulated entries together with the loop variables that survive the loop
(`release`, `second_compare_main`, `second_compare_suffix`). -/
def handleLoop (env : AggregatorEnv) (package_name url upstream_url : String)
    (fcMain fcSuffix fcVersion : String) :
    List String → Except Unit (List Entry × String × String × String)
  | [] => .error ()
  | release :: rest => do
    let (sm, ss) ← secondCompareParts release
    let entries :=
      if fcMain = sm ∧ fcSuffix ≠ ss then
        addEntries (env.compare url fcVersion release package_name "minor" (some release))
      else if fcMain ≠ sm then
        addEntries (env.compare url fcVersion release package_name "arch" none) ++
        addEntries (env.upstream upstream_url fcVersion release package_name (some release))
      else []
    match rest with
    | [] => .ok (entries, release, sm, ss)
    | _ :: _ => do
      let (m, s) ← liftOpt (split_package_tag release)
      let (more, lr, lm, ls) ←
        handleLoop env package_name url upstream_url m s release rest
      .ok (entries ++ more, lr, lm, ls)

/-- Embedding of `PackageHandler.handle_intermediate_tags`
(package_handler.py, lines 421-573).  The loop is `handleLoop`; after it, the
final hop (last intermediate tag → `package.new_version`) is compared
(lines 525-568).  An empty `intermediate_tags` list makes Python hit the
post-loop block with unbound loop variables (`NameError`), hence `.error ()`;
the caller only ever passes a non-empty list because `find_intermediate_tags`
never returns an empty one. -/
def handle_intermediate_tags (env : AggregatorEnv) (package : PkgInfo)
    (package_name url upstream_url : String) (intermediate_tags : List String) :
    Except Unit (Option (List Entry)) :=
  match intermediate_tags with
  | [] => .error ()
  | _ :: _ => do
    let (entries, release, sm, ss) ←
      handleLoop env package_name url upstream_url
        package.current_main_altered package.current_suffix
        package.current_version_altered intermediate_tags
    let package_changelog :=
      if sm = package.new_main ∧ ss ≠ package.new_suffix then
        entries ++
          addEntries (env.compare url release package.new_version package_name "minor" none)
      else if sm ≠ package.new_main then
        entries ++
          addEntries (env.compare url release package.new_version package_name "arch"
            (some package.new_version_altered)) ++
          addEntries (env.upstream upstream_url release package.new_version package_name
            (some package.new_version_altered))
      else entries
    .ok (if package_changelog = [] then none else some package_changelog)

/-- Embedding of `PackageHandler.get_package_changelog`
(package_handler.py, lines 242-419) over the oracle `env`.  The result mirrors
the Python return value `Optional[Tuple[package, Optional[changelog]]]`;
`.error ()` models an exception escaping the call. -/
def get_package_changelog (env : AggregatorEnv) :
    Except Unit (Option (PkgInfo × Option (List Entry))) :=
  match env.splitInfo with
  | none => .ok none
  | some package =>
    if env.arch_package_repository = [] then .ok (some (package, none))
    else
      let package_name_search :=
        if package.package_base = "" then package.package_name
        else package.package_base
      match env.arch_package_tags with
      | none => .ok (some (package, none))
      | some arch_package_tags =>
        if arch_package_tags = [] then .ok (some (package, none))
        else
          let upstream_url :=
            match env.package_upstream_url_nvchecker with
            | some u => u
            | none => package.package_upstream_url_overview
          match find_intermediate_tags arch_package_tags
              package.current_version package.new_version with
          | some intermediate_tags => do
            let temp ← handle_intermediate_tags env package package_name_search
              env.package_source_files_url upstream_url intermediate_tags
            let package_changelog := addEntries temp
            .ok (some (package,
              if package_changelog = [] then none else some package_changelog))
          | none =>
            let major_entries :=
              if package.current_main ≠ package.new_main then
                addEntries (env.compare env.package_source_files_url
                  package.current_version_altered package.new_version_altered
                  package_name_search "arch" none) ++
                addEntries (env.upstream upstream_url
                  package.current_version_altered package.new_version_altered
                  package_name_search (some package.new_version_altered))
              else []
            let all_entries := major_entries ++
              (if package.current_main = package.new_main ∧
                  package.current_suffix ≠ package.new_suffix ∧
                  env.package_source_files_url ≠ "" then
                addEntries (env.compare env.package_source_files_url
                  package.current_version_altered package.new_version_altered
                  package_name_search "minor" none)
               else [])
            .ok (some (package,
              if all_entries = [] then none else some all_entries))

/-! ## Resilient Fetch Client

The retry loops of `GitHubAPI.__get_single_page` (github_api.py, 122-235),
`GitLabAPI.__get` (gitlab_api.py, 41-118) and `ArchLinuxAPI.__get`
(archlinux_api.py, 32-91) share one skeleton: up to `max_attempts` HTTP
requests; success (`raise_for_status` not raising, i.e. status < 400) returns
immediately; a retryable error status before the last attempt sleeps a
client-specific wait time and retries; anything else fails terminally.
The requests are modelled by an oracle `resp : Nat → HttpResponse`
(the response the server gives to attempt number `attempt`); connection-level
`httpx.RequestError`s are outside this model.  `time.time()` is the
oracle value `now`. -/

/-- An HTTP response: status code and the headers the clients read.
`retryAfter` is the parsed `retry-after` header, `rlRemaining` the raw
`x-ratelimit-remaining` header, `rlReset` the parsed `x-ratelimit-reset`
header with Python's `headers.get("x-ratelimit-reset", "0")` default. -/
structure HttpResponse where
  status : Nat
  retryAfter : Option Nat := none
  rlRemaining : Option String := none
  rlReset : Nat := 0
deriving DecidableEq, Repr

/-- `GitHubAPI.retry_status_codes` (github_api.py, line 38). -/
def githubRetryStatusCodes : List Nat := [403, 429, 500, 502, 503, 504]

/-- `GitLabAPI.retry_status_codes` (gitlab_api.py, line 39). -/
def gitlabRetryStatusCodes : List Nat := [429, 500, 502, 503, 504]

/-- `ArchLinuxAPI.retry_status_codes` (archlinux_api.py, line 30). -/
def archlinuxRetryStatusCodes : List Nat := [429, 500, 502, 503, 504]

/-- The wait-time computation of `GitHubAPI.__get_single_page`
(github_api.py, lines 175-211): an explicit `retry-after` header wins;
else, for a 403 whose `x-ratelimit-remaining` header is the string "0",
the seconds until the `x-ratelimit-reset` epoch (`max(0, reset - now)`,
which is Lean's truncated `Nat` subtraction); else the exponential fallback
`backoff_factor ** attempt`. -/
def githubWait (r : HttpResponse) (attempt backoff now : Nat) : Nat :=
  match r.retryAfter with
  | some w => w
  | none =>
    if r.status = 403 ∧ r.rlRemaining = some "0" then r.rlReset - now
    else backoff ^ attempt

/-- The wait-time computation of `GitLabAPI.__get` (gitlab_api.py, line 92)
and `ArchLinuxAPI.__get` (archlinux_api.py, line 67): always
`backoff_factor ** attempt`, headers are never consulted. -/
def backoffWait (attempt backoff : Nat) : Nat := backoff ^ attempt

/-- Observable outcome of one retry loop: whether the call succeeded, the
sleeps performed (in order), and the number of HTTP requests made. -/
structure FetchTrace where
  ok : Bool
  sleeps : List Nat
  attempts : Nat
deriving DecidableEq, Repr

/-- The shared `for attempt in range(max_attempts)` retry skeleton,
parameterized by the retryable status set and the wait-time rule.
The structural recursion runs on `remaining`, the number of loop iterations
left (`maxAttempts - attempt`); `attempt` is the current iteration index.
Loop exhausted → the post-loop `return None`; status < 400 → success
(`raise_for_status` did not raise); retryable status with attempts to
spare → sleep `wait` and continue; otherwise → terminal failure
(`return None`). -/
def retryLoop (resp : Nat → HttpResponse) (retryCodes : List Nat)
    (wait : HttpResponse → Nat → Nat) (maxAttempts : Nat) :
    Nat → Nat → FetchTrace
  | 0, _ => ⟨false, [], 0⟩
  | remaining + 1, attempt =>
    let r := resp attempt
    if r.status < 400 then ⟨true, [], 1⟩
    else if r.status ∈ retryCodes ∧ attempt < maxAttempts - 1 then
      let rest := retryLoop resp retryCodes wait maxAttempts remaining (attempt + 1)
      ⟨rest.ok, wait r attempt :: rest.sleeps, 1 + rest.attempts⟩
    else ⟨false, [], 1⟩

/-- The retry behaviour of `GitHubAPI.__get_single_page`
(github_api.py, 122-235) on the HTTP-status path. -/
def githubGetSinglePage (resp : Nat → HttpResponse)
    (maxAttempts backoff now : Nat) : FetchTrace :=
  retryLoop resp githubRetryStatusCodes (fun r a => githubWait r a backoff now)
    maxAttempts maxAttempts 0

/-- The retry behaviour of `GitLabAPI.__get` (gitlab_api.py, 41-118) on the
HTTP-status path. -/
def gitlabGet (resp : Nat → HttpResponse) (maxAttempts backoff : Nat) :
    FetchTrace :=
  retryLoop resp gitlabRetryStatusCodes (fun _ a => backoffWait a backoff)
    maxAttempts maxAttempts 0

/-- The retry behaviour of `ArchLinuxAPI.__get` (archlinux_api.py, 32-91) on
the HTTP-status path. -/
def archlinuxGet (resp : Nat → HttpResponse) (maxAttempts backoff : Nat) :
    FetchTrace :=
  retryLoop resp archlinuxRetryStatusCodes (fun _ a => backoffWait a backoff)
    maxAttempts maxAttempts 0

/-! ## GitHub pagination (`GitHubAPI.__get`, github_api.py, 40-120) -/

/-- One fetched page, as `GitHubAPI.__get` sees it after
`__get_single_page`: the returned items and the `rel="next"` URL
extracted from the `Link` response header (`none` when the header is absent
or has no `next` relation). -/
structure Page where
  items : List Entry
  nextUrl : Option String
deriving Repr

/-- The pagination loop of `GitHubAPI.__get` (github_api.py, lines 75-120),
with the page fetches modelled by the oracle `fetch`.  `fetch u = none`
models `__get_single_page` failing (`if not data`: a `None` — or empty —
page aborts the whole call with `None`).  Besides the Python result, the
trace records the item lists of the fetched pages in request order.
Loop head: `while url and (page_number <= max_pages)` with `max_pages = 8`;
loop tail: break when there is no next link and the page was shorter than
`page_size`, else follow the next link.  The structural recursion runs on
`pagesLeft`, the number of page numbers still within the `max_pages` cap
(`9 - pageNumber`, so 8 at the initial page number 1; `0` is the
`page_number > max_pages` exit). -/
def githubPaginate (fetch : String → Option Page) (pageSize : Nat) :
    Option String → Nat → List Entry →
    Option (List Entry) × List (List Entry)
  | none, _, results => (some results, [])
  | some _, 0, results => (some results, [])
  | some url, pagesLeft + 1, results =>
    match fetch url with
    | none => (none, [])
    | some page =>
      if page.items = [] then (none, [])
      else
        let results' := results ++ page.items
        if page.nextUrl = none ∧ page.items.length < pageSize then
          (some results', [page.items])
        else
          let (res, visited) :=
            githubPaginate fetch pageSize page.nextUrl pagesLeft results'
          (res, page.items :: visited)

/-- `GitHubAPI.__get` (github_api.py, 40-120): start at the endpoint URL with
page number 1 — i.e. 8 page numbers within the cap — and no accumulated
results. -/
def githubGet (fetch : String → Option Page) (pageSize : Nat)
    (endpoint : String) : Option (List Entry) × List (List Entry) :=
  githubPaginate fetch pageSize (some endpoint) 8 []

/-! ## Fuzzy Tag Matcher (`PackageHandler.get_closest_package_tag`,
package_handler.py, lines 1040-1094) -/

/-- Step 1 of `normalize_tag` (package_handler.py, line 1078):
`re.sub(r"^\d{1,2}-", "", tag)` — remove a leading one- or two-digit epoch
followed by a dash (the regex engine greedily prefers two digits). -/
def stripEpochPrefix : List Char → List Char
  | c1 :: c2 :: c3 :: rest =>
    if c1.isDigit ∧ c2.isDigit ∧ c3 = '-' then rest
    else if c1.isDigit ∧ c2 = '-' then c3 :: rest
    else c1 :: c2 :: c3 :: rest
  | [c1, c2] => if c1.isDigit ∧ c2 = '-' then [] else [c1, c2]
  | l => l

/-- Step 4 of `normalize_tag` (package_handler.py, line 1081):
`re.sub(r"-(\d+)$", "", tag)` — remove a trailing dash-digits release
counter (keeping suffixes like `-rc1`, whose digits are not preceded by a
dash). -/
def stripTrailingRelease (l : List Char) : List Char :=
  let rev := l.reverse
  let ds := rev.takeWhile (fun c => c.isDigit)
  if ds ≠ [] ∧ (rev.drop ds.length).head? = some '-' then
    ((rev.drop ds.length).drop 1).reverse
  else l

/-- The inner `normalize_tag` of `PackageHandler.get_closest_package_tag`
(package_handler.py, lines 1063-1083): strip a leading epoch-digits-dash
prefix, strip leading `v`s (`lstrip("v")`), replace `_` with `.`, strip a
trailing `-<digits>` release counter. -/
def normalize_tag (tag : String) : String :=
  String.mk (stripTrailingRelease
    (((stripEpochPrefix tag.data).dropWhile (fun c => c = 'v')).map
      (fun c => if c = '_' then '.' else c)))

/-- Longest common subsequence length of two character lists, with a fuel
argument making the recursion structural (any `fuel ≥ |l1| + |l2|` is
enough). -/
def lcsLenAux : Nat → List Char → List Char → Nat
  | 0, _, _ => 0
  | _ + 1, [], _ => 0
  | _ + 1, _ :: _, [] => 0
  | fuel + 1, a :: as, b :: bs =>
    if a = b then 1 + lcsLenAux fuel as bs
    else max (lcsLenAux fuel (a :: as) bs) (lcsLenAux fuel as (b :: bs))

/-- Longest common subsequence length of two character lists. -/
def lcsLen (l1 l2 : List Char) : Nat :=
  lcsLenAux (l1.length + l2.length) l1 l2

/-- Model of the RapidFuzz scorer used by `process.extract` in
`get_closest_package_tag` (package_handler.py, line 1088).  RapidFuzz is an
external dependency; its score is modelled as the normalized indel
similarity `100 * (|a| + |b| - dist) / (|a| + |b|)` where `dist` is the
indel distance `|a| + |b| - 2 * lcs(a, b)` (RapidFuzz's `ratio`; on the
claim's inputs the default `WRatio` scorer agrees with it).  The score is
kept as an exact numerator/denominator pair of the fraction
`100 * (total - dist) / total`, compared by cross-multiplication. -/
def fuzzScore (a b : String) : Nat × Nat :=
  let total := a.length + b.length
  if total = 0 then (100, 1)
  else
    let dist := total - 2 * lcsLen a.data b.data
    (100 * (total - dist), total)

/-- Strict comparison of two scores (fractions), by cross-multiplication. -/
def scoreLtB (p q : Nat × Nat) : Bool := p.1 * q.2 < q.1 * p.2

/-- `score ≥ cutoff` for an integer percentage cutoff, exactly. -/
def scoreGeB (p : Nat × Nat) (cutoff : Nat) : Bool := cutoff * p.2 ≤ p.1

/-- One insertion into the Python dict comprehension
`{normalize_tag(t): t for t in tags}` (package_handler.py, line 1086):
an existing key keeps its position but its value is overwritten;
a new key is appended. -/
def dictInsert (l : List (String × String)) (k v : String) :
    List (String × String) :=
  if l.any (fun p => p.1 = k) then
    l.map (fun p => if p.1 = k then (p.1, v) else p)
  else l ++ [(k, v)]

/-- The dict `normalized_tags = {normalize_tag(t): t for t in tags}`
(package_handler.py, line 1086) as an insertion-ordered association list. -/
def buildNormalizedTags (tags : List String) : List (String × String) :=
  tags.foldl (fun acc t => dictInsert acc (normalize_tag t) t) []

/-- Keep the better-scoring of two scored candidates (the earlier one on
ties). -/
def pickBetter (best p : String × (Nat × Nat)) : String × (Nat × Nat) :=
  if scoreLtB best.2 p.2 then p else best

/-- `process.extract(cleaned_tag, keys, score_cutoff=threshold)` followed by
`matches[0]` (package_handler.py, lines 1088-1092): drop candidates scoring
below the cutoff, then take the best-scoring one (first wins on ties, as in
RapidFuzz's stable ranking); `none` when no candidate survives the cutoff. -/
def extractBest (cleaned : String) (keys : List String) (threshold : Nat) :
    Option String :=
  let scored := keys.map (fun k => (k, fuzzScore cleaned k))
  let filtered := scored.filter (fun p => scoreGeB p.2 threshold)
  match filtered with
  | [] => none
  | h :: t => some ((t.foldl pickBetter h).1)

/-- Embedding of `PackageHandler.get_closest_package_tag`
(package_handler.py, lines 1040-1094): normalize the tag and all candidates,
fuzzy-rank the normalized candidates, and return the original spelling
(`normalized_tags[best_match]`) of the best match at or above the threshold,
else `none`. -/
def get_closest_package_tag (current_tag : String) (tags : List String)
    (threshold : Nat := 70) : Option String :=
  let cleaned_tag := normalize_tag current_tag
  let normalized_tags := buildNormalizedTags tags
  match extractBest cleaned_tag (normalized_tags.map (fun p => p.1)) threshold with
  | none => none
  | some best => (normalized_tags.find? (fun p => p.1 = best)).map (fun p => p.2)

end Archlog

namespace Archlog

/-! # Theorems -/

/-! ## String helper lemmas -/

theorem splitDash_ne_nil (l : List Char) : splitDash l ≠ [] := by
  cases l with
  | nil => simp [splitDash]
  | cons c rest =>
    simp only [splitDash]
    split
    · simp
    · cases h : splitDash rest <;> simp

theorem splitDash_length (l : List Char) :
    (splitDash l).length = countDash l + 1 := by
  induction l with
  | nil => simp [splitDash, countDash]
  | cons c rest ih =>
    simp only [splitDash, countDash, List.filter] at *
    by_cases hc : c = '-'
    · simp [hc, ih, countDash]
    · simp only [if_neg hc]
      have hne := splitDash_ne_nil rest
      cases h : splitDash rest with
      | nil => exact absurd h hne
      | cons a t =>
        rw [h] at ih
        simp only [List.length_cons] at ih ⊢
        simp [decide_eq_true_eq, hc, countDash] at ih ⊢
        omega

theorem pySplitDash_length (s : String) :
    (pySplitDash s).length = strCountDash s + 1 := by
  simp [pySplitDash, splitDash_length, strCountDash]

theorem replaceOneColonAux_cons (c : Char) (l : List Char) :
    ∃ t, replaceOneColonAux (c :: l) = c :: t := by
  cases l with
  | nil => exact ⟨[], rfl⟩
  | cons c2 rest =>
    simp only [replaceOneColonAux]
    split
    · next h => exact ⟨'-' :: replaceOneColonAux rest, by rw [h.1]⟩
    · exact ⟨replaceOneColonAux (c2 :: rest), rfl⟩

theorem replaceOneColonAux_cons_ne (c : Char) (l : List Char) (hc : c ≠ '1') :
    replaceOneColonAux (c :: l) = c :: replaceOneColonAux l := by
  cases l with
  | nil => rfl
  | cons c2 rest =>
    simp only [replaceOneColonAux]
    rw [if_neg]
    intro h
    exact hc h.1

theorem replaceOneColonAux_idem (l : List Char) :
    replaceOneColonAux (replaceOneColonAux l) = replaceOneColonAux l := by
  induction l using replaceOneColonAux.induct with
  | case1 => rfl
  | case2 c => rfl
  | case3 c1 c2 rest h ih =>
    simp only [replaceOneColonAux, if_pos h]
    rw [replaceOneColonAux_cons_ne '-' _ (by decide)]
    simp [ih]
  | case4 c1 c2 rest h ih =>
    simp only [replaceOneColonAux, if_neg h]
    obtain ⟨t, ht⟩ := replaceOneColonAux_cons c2 rest
    rw [ht]
    have h3 : replaceOneColonAux (c1 :: c2 :: t) =
        c1 :: replaceOneColonAux (c2 :: t) := by
      simp only [replaceOneColonAux]
      rw [if_neg h]
    rw [h3, ← ht, ih, ht]

/-! ## Claim C1 — split_package_tag -/

/-- C1: for every tag with at least two dashes, `split_package_tag` returns
the second dash-separated segment as main and the first as suffix; for every
tag with exactly one dash (and segments of different lengths), the longer
segment is the main and the shorter the suffix; in particular
`split("1-15.2.3-2") = ("15.2.3", "1")` and
`split("24.12.2-1") = ("24.12.2", "1")`. -/
theorem split_package_tag_main_suffix :
    split_package_tag "1-15.2.3-2" = some ("15.2.3", "1") ∧
    split_package_tag "24.12.2-1" = some ("24.12.2", "1") ∧
    (∀ tag : String, 2 ≤ strCountDash tag →
      ∃ seg0 seg1, (pySplitDash tag)[0]? = some seg0 ∧
        (pySplitDash tag)[1]? = some seg1 ∧
        split_package_tag tag = some (seg1, seg0)) ∧
    (∀ tag seg0 seg1, strCountDash tag = 1 → pySplitDash tag = [seg0, seg1] →
      (seg0.length < seg1.length → split_package_tag tag = some (seg1, seg0)) ∧
      (seg1.length < seg0.length → split_package_tag tag = some (seg0, seg1))) := by
  refine ⟨by decide, by decide, ?_, ?_⟩
  · intro tag h
    have hlen := pySplitDash_length tag
    have htake : (pySplitDash tag).take (strCountDash tag + 1) = pySplitDash tag :=
      List.take_of_length_le (by omega)
    have h0 := @List.getElem?_eq_getElem _ (pySplitDash tag) 0 (by omega)
    have h1 := @List.getElem?_eq_getElem _ (pySplitDash tag) 1 (by omega)
    refine ⟨_, _, h0, h1, ?_⟩
    simp only [split_package_tag, htake]
    rw [if_pos (by omega : strCountDash tag + 1 ≥ 3), h0, h1]
  · intro tag seg0 seg1 hcount hsplit
    have htake : (pySplitDash tag).take (strCountDash tag + 1) = pySplitDash tag :=
      List.take_of_length_le (by rw [pySplitDash_length])
    constructor
    · intro hlt
      simp only [split_package_tag, htake, hsplit, hcount]
      norm_num
      exact fun h => absurd hlt (by omega)
    · intro hgt
      simp only [split_package_tag, htake, hsplit, hcount]
      norm_num
      exact fun h => absurd h (by omega)

/-- Witness for C1: the general parts applied at the claim's two example
tags. -/
theorem split_package_tag_main_suffix_witness :
    (∃ seg0 seg1, (pySplitDash "1-15.2.3-2")[0]? = some seg0 ∧
      (pySplitDash "1-15.2.3-2")[1]? = some seg1 ∧
      split_package_tag "1-15.2.3-2" = some (seg1, seg0)) ∧
    split_package_tag "24.12.2-1" = some ("24.12.2", "1") :=
  ⟨split_package_tag_main_suffix.2.2.1 "1-15.2.3-2" (by decide),
   (split_package_tag_main_suffix.2.2.2 "24.12.2-1" "24.12.2" "1"
     (by decide) (by decide)).2 (by decide)⟩

/-! ## Claim C2 — minor/major classification -/

/-- C2: a pair of versions with equal derived mains and different suffixes is
classified as a minor release; a pair with different mains as a major
release, irrespective of the suffixes.  The third conjunct ties
`classifyRelease` to the embedded code: one iteration of the
`handle_intermediate_tags` loop fetches the "minor" comparison exactly for a
minor hop, the "arch" + upstream ("major") comparisons exactly for a major
hop, and nothing otherwise. -/
theorem classify_release_minor_major :
    (∀ firstMain firstSuffix secondMain secondSuffix : String,
      firstMain = secondMain → firstSuffix ≠ secondSuffix →
      classifyRelease firstMain firstSuffix secondMain secondSuffix =
        some .minor) ∧
    (∀ firstMain firstSuffix secondMain secondSuffix : String,
      firstMain ≠ secondMain →
      classifyRelease firstMain firstSuffix secondMain secondSuffix =
        some .major) ∧
    (∀ (env : AggregatorEnv)
      (package_name url upstream_url fm fs fv release sm ss : String),
      secondCompareParts release = .ok (sm, ss) →
      handleLoop env package_name url upstream_url fm fs fv [release] =
        .ok ((match classifyRelease fm fs sm ss with
          | some .minor =>
            addEntries (env.compare url fv release package_name "minor"
              (some release))
          | some .major =>
            addEntries (env.compare url fv release package_name "arch" none) ++
            addEntries (env.upstream upstream_url fv release package_name
              (some release))
          | _ => []), release, sm, ss)) := by
  refine ⟨?_, ?_, ?_⟩
  · intro fm fs sm ss h1 h2
    simp only [classifyRelease]
    rw [if_pos ⟨h1, h2⟩]
  · intro fm fs sm ss h
    simp only [classifyRelease]
    rw [if_neg (fun hc => h hc.1), if_pos h]
  · intro env package_name url upstream_url fm fs fv release sm ss h
    have hb : ∀ {β : Type} (a : String × String)
        (f : String × String → Except Unit β),
        ((Except.ok a : Except Unit (String × String)) >>= f) = f a :=
      fun _ _ => rfl
    simp only [handleLoop, h, hb, classifyRelease]
    by_cases h1 : fm = sm ∧ fs ≠ ss
    · simp [h1, h1.1, h1.2]
    · by_cases h2 : fm = sm
      · have hfs : fs = ss := by
          by_contra hne
          exact h1 ⟨h2, hne⟩
        simp [h1, h2, hfs]
      · simp [h1, h2]

/-- Witness for C2: concrete minor and major classifications, and a concrete
single-hop loop iteration. -/
theorem classify_release_minor_major_witness :
    classifyRelease "1.16.5" "2" "1.16.5" "3" = some .minor ∧
    classifyRelease "1.16.5" "2" "1.17" "1" = some .major ∧
    (handleLoop ⟨none, [], "", none, none,
        fun _ _ _ _ _ _ => some ["e"], fun _ _ _ _ _ => none⟩
      "pkg" "u" "up" "1.16.5" "2" "1.16.5-2" ["1.16.5-3"] =
      .ok ((match classifyRelease "1.16.5" "2" "1.16.5" "3" with
        | some .minor =>
          addEntries ((some ["e"] : Option (List Entry)))
        | some .major =>
          addEntries ((some ["e"] : Option (List Entry))) ++
          addEntries ((none : Option (List Entry)))
        | _ => []), "1.16.5-3", "1.16.5", "3")) := by
  refine ⟨classify_release_minor_major.1 _ _ _ _ rfl (by decide),
    classify_release_minor_major.2.1 _ _ _ _ (by decide), ?_⟩
  exact classify_release_minor_major.2.2 _ "pkg" "u" "up" "1.16.5" "2"
    "1.16.5-2" "1.16.5-3" "1.16.5" "3" rfl

/-! ## Claim C3 — find_intermediate_tags -/

theorem findTagIndices_skip (cur nw : String) (xs : List String)
    (h : ∀ t ∈ xs, t ≠ cur ∧ t ≠ nw) (idx : Nat) (si : Option Nat)
    (rest : List String) :
    findTagIndices cur nw idx si none (xs ++ rest) =
    findTagIndices cur nw (idx + xs.length) si none rest := by
  induction xs generalizing idx with
  | nil => simp
  | cons t ts ih =>
    have ht := h t (List.mem_cons_self t ts)
    simp only [List.cons_append, findTagIndices, ht.1, ht.2, if_false,
      Option.isSome_none, Bool.false_eq_true, and_false, List.append_eq,
      List.length_cons]
    rw [ih (fun t' ht' => h t' (List.mem_cons_of_mem _ ht')) (idx + 1),
      show idx + 1 + ts.length = idx + (ts.length + 1) from by omega]

theorem findTagIndices_at_nw (cur nw : String) (hne : nw ≠ cur) (idx : Nat)
    (rest : List String) :
    findTagIndices cur nw idx none none (nw :: rest) =
    findTagIndices cur nw (idx + 1) (some idx) none rest := by
  simp only [findTagIndices]
  rw [if_neg hne]
  simp

theorem findTagIndices_at_cur (cur nw : String) (idx si : Nat)
    (rest : List String) :
    findTagIndices cur nw idx (some si) none (cur :: rest) =
    (some si, some idx) := by
  simp [findTagIndices]

theorem findTagIndices_fst_none (cur nw : String) :
    ∀ (tags : List String), nw ∉ tags → ∀ (idx : Nat) (ei : Option Nat),
    (findTagIndices cur nw idx none ei tags).1 = none := by
  intro tags
  induction tags with
  | nil => intro _ idx ei; simp [findTagIndices]
  | cons t ts ih =>
    intro h idx ei
    have htn : t ≠ nw := fun e => h (e ▸ List.mem_cons_self t ts)
    have hts : nw ∉ ts := fun hm => h (List.mem_cons_of_mem _ hm)
    simp only [findTagIndices]
    by_cases htc : t = cur
    · rw [if_pos htc]
      simp only [Option.isSome_none, Bool.false_eq_true, false_and, if_false]
      exact ih hts _ _
    · rw [if_neg htc, if_neg htn]
      simp only
      split
      · next hb => simp at hb
      · exact ih hts _ _

theorem findTagIndices_snd_none (cur nw : String) :
    ∀ (tags : List String), cur ∉ tags → ∀ (idx : Nat) (si : Option Nat),
    (findTagIndices cur nw idx si none tags).2 = none := by
  intro tags
  induction tags with
  | nil => intro _ idx si; simp [findTagIndices]
  | cons t ts ih =>
    intro h idx si
    have htc : t ≠ cur := fun e => h (e ▸ List.mem_cons_self t ts)
    have hts : cur ∉ ts := fun hm => h (List.mem_cons_of_mem _ hm)
    simp only [findTagIndices]
    rw [if_neg htc]
    by_cases htn : t = nw
    · rw [if_pos htn]
      simp only [Option.isSome_none, Bool.false_eq_true, and_false, if_false]
      exact ih hts _ _
    · rw [if_neg htn]
      simp only
      split
      · next hb => simp at hb
      · exact ih hts _ _

/-- C3 (amended): for a newest-first tag list of the form
`xs ++ [new] ++ ys ++ [current] ++ zs` in which neither normalized tag occurs
before the `current` position except at the `new` position itself,
`find_intermediate_tags` returns the strictly-between slice `ys` reversed
into oldest-first order when `ys` is non-empty, and `none` when it is empty;
if either normalized tag is absent from the list, it returns `none`.
In particular, for `[t5, t4, t3, t2, t1]` with `current = t1`, `new = t4`,
the result is `[t2, t3]`. -/
theorem find_intermediate_tags_between_reversed :
    find_intermediate_tags ["t5", "t4", "t3", "t2", "t1"] "t1" "t4" =
      some ["t2", "t3"] ∧
    (∀ (xs ys zs : List String) (cur nw : String),
      normalizeColon cur ∉ xs → normalizeColon nw ∉ xs →
      normalizeColon cur ∉ ys → normalizeColon nw ∉ ys →
      normalizeColon cur ≠ normalizeColon nw →
      find_intermediate_tags
        (xs ++ (normalizeColon nw :: (ys ++ normalizeColon cur :: zs))) cur nw =
        if ys = [] then none else some ys.reverse) ∧
    (∀ (tags : List String) (cur nw : String),
      normalizeColon cur ∉ tags ∨ normalizeColon nw ∉ tags →
      find_intermediate_tags tags cur nw = none) := by
  refine ⟨by decide, ?_, ?_⟩
  · intro xs ys zs cur nw hcx hnx hcy hny hne
    have hxs : ∀ t ∈ xs, t ≠ normalizeColon cur ∧ t ≠ normalizeColon nw :=
      fun t ht => ⟨fun e => hcx (e ▸ ht), fun e => hnx (e ▸ ht)⟩
    have hys : ∀ t ∈ ys, t ≠ normalizeColon cur ∧ t ≠ normalizeColon nw :=
      fun t ht => ⟨fun e => hcy (e ▸ ht), fun e => hny (e ▸ ht)⟩
    simp only [find_intermediate_tags]
    rw [findTagIndices_skip (normalizeColon cur) (normalizeColon nw) xs hxs 0
        none (normalizeColon nw :: (ys ++ normalizeColon cur :: zs)),
      findTagIndices_at_nw _ _ (Ne.symm hne),
      findTagIndices_skip (normalizeColon cur) (normalizeColon nw) ys hys
        (0 + xs.length + 1) (some (0 + xs.length))
        (normalizeColon cur :: zs),
      findTagIndices_at_cur]
    have hdrop :
        (xs ++ (normalizeColon nw :: (ys ++ normalizeColon cur :: zs))).drop
          (0 + xs.length + 1) = ys ++ normalizeColon cur :: zs := by
      rw [show xs ++ (normalizeColon nw :: (ys ++ normalizeColon cur :: zs)) =
        (xs ++ [normalizeColon nw]) ++ (ys ++ normalizeColon cur :: zs) from
        by simp]
      exact List.drop_left' (by simp)
    have harith : 0 + xs.length + 1 + ys.length - (0 + xs.length + 1) =
        ys.length := by omega
    simp only [harith, hdrop, List.take_left]
  · intro tags cur nw h
    simp only [find_intermediate_tags]
    rcases h with h | h
    · have h2 := findTagIndices_snd_none (normalizeColon cur)
        (normalizeColon nw) tags h 0 none
      rcases hfi : findTagIndices (normalizeColon cur) (normalizeColon nw)
          0 none none tags with ⟨a, b⟩
      rw [hfi] at h2
      simp at h2
      subst h2
      rcases a with _ | av <;> rfl
    · have h1 := findTagIndices_fst_none (normalizeColon cur)
        (normalizeColon nw) tags h 0 none
      rcases hfi : findTagIndices (normalizeColon cur) (normalizeColon nw)
          0 none none tags with ⟨a, b⟩
      rw [hfi] at h1
      simp at h1
      subst h1
      rcases b with _ | bv <;> rfl

/-- Witness for C3: the amended positional statement applied at the claim's
`[t5..t1]` example, and the absence case at a list missing the current tag. -/
theorem find_intermediate_tags_between_reversed_witness :
    (find_intermediate_tags
      (["t5"] ++ (normalizeColon "t4" :: (["t3", "t2"] ++
        normalizeColon "t1" :: []))) "t1" "t4" =
      if (["t3", "t2"] : List String) = [] then none
      else some ["t3", "t2"].reverse) ∧
    find_intermediate_tags ["t9", "t8"] "t1" "t4" = none :=
  ⟨find_intermediate_tags_between_reversed.2.1 ["t5"] ["t3", "t2"] []
    "t1" "t4" (by decide) (by decide) (by decide) (by decide) (by decide),
   find_intermediate_tags_between_reversed.2.2 ["t9", "t8"] "t1" "t4"
    (Or.inl (by decide))⟩

/-- Counterexample to C3 as stated: with tags `["2-1", "1-1"]`,
`current = "1-1"`, `new = "2-1"`, both tags are present and the slice
strictly between their positions is empty, so the claim requires the result
`some []` (the empty slice reversed) — the spec-side `specFindIntermediate`
indeed gives `some []` — but the code returns `none`. -/
theorem find_intermediate_tags_empty_slice_counterexample :
    find_intermediate_tags ["2-1", "1-1"] "1-1" "2-1" = none ∧
    specFindIntermediate ["2-1", "1-1"] "1-1" "2-1" = some [] ∧
    find_intermediate_tags ["2-1", "1-1"] "1-1" "2-1" ≠
      specFindIntermediate ["2-1", "1-1"] "1-1" "2-1" := by
  exact ⟨by decide, by decide, by decide⟩

/-! ## Claim C4 — partial progress on upstream failure -/

/-- C4: when the packaging-side ("arch") comparison of a major release
succeeds but the upstream side fails (`get_package_changelog_upstream_source`
returns `None`, whatever upstream URL it was given), `get_package_changelog`
still returns the non-empty arch-tagged entry list — no entries are discarded
and no exception is raised (the result is `.ok`). -/
theorem get_package_changelog_keeps_arch_entries
    (env : AggregatorEnv) (pkg : PkgInfo) (tags : List String)
    (archEntries : List Entry)
    (hsplit : env.splitInfo = some pkg)
    (hrepo : env.arch_package_repository ≠ [])
    (htags : env.arch_package_tags = some tags)
    (htne : tags ≠ [])
    (hfind : find_intermediate_tags tags pkg.current_version pkg.new_version =
      none)
    (hmaj : pkg.current_main ≠ pkg.new_main)
    (hcmp : env.compare env.package_source_files_url
      pkg.current_version_altered pkg.new_version_altered
      (if pkg.package_base = "" then pkg.package_name else pkg.package_base)
      "arch" none = some archEntries)
    (hup : ∀ u, env.upstream u
      pkg.current_version_altered pkg.new_version_altered
      (if pkg.package_base = "" then pkg.package_name else pkg.package_base)
      (some pkg.new_version_altered) = none)
    (hne : archEntries ≠ []) :
    get_package_changelog env = .ok (some (pkg, some archEntries)) := by
  simp [get_package_changelog, hsplit, hrepo, htags, htne, hfind, hmaj,
    hcmp, hup, addEntries, hne]

/-- Witness for C4: a concrete package `foo`, `1.2.0-1 → 1.3.0-1`, adjacent
packaging tags (no intermediates), arch comparison yielding one entry,
upstream always failing. -/
theorem get_package_changelog_keeps_arch_entries_witness :
    get_package_changelog
      ⟨some ⟨"foo", "", "", "https://github.com/owner/foo", "1.2.0-1",
          "1.2.0-1", "1.3.0-1", "1.3.0-1", "1.2.0", "1.2.0", "1.3.0",
          "1", "1"⟩,
        ["extra"], "src", some ["1.3.0-1", "1.2.0-1"], none,
        fun _ _ _ _ rtype _ => if rtype = "arch" then some ["a1"] else none,
        fun _ _ _ _ _ => none⟩ =
      .ok (some (⟨"foo", "", "", "https://github.com/owner/foo", "1.2.0-1",
          "1.2.0-1", "1.3.0-1", "1.3.0-1", "1.2.0", "1.2.0", "1.3.0",
          "1", "1"⟩, some ["a1"])) := by
  exact get_package_changelog_keeps_arch_entries _ _ ["1.3.0-1", "1.2.0-1"]
    ["a1"] rfl (by decide) rfl (by decide) (by decide) (by decide) rfl
    (fun u => rfl) (by decide)

/-! ## Claim C9 — malformed (dashless) version strings -/

/-- C9 evaluation: on a tag with no dash, `split_package_tag` hits the
out-of-range indexing (`tag_parts[1]`), modelled as `none` — in Python an
`IndexError` is raised.  That exception is not caught anywhere in the
component: driving the embedded aggregator into a dashless intermediate tag
makes `get_package_changelog` end in `.error ()` (the exception escapes the
component boundary) instead of skipping the package. -/
theorem split_package_tag_no_dash_raises :
    split_package_tag "abc" = none ∧
    get_package_changelog
      ⟨some ⟨"foo", "", "", "https://github.com/owner/foo", "1.2.0-1",
          "1.2.0-1", "1.3.0-1", "1.3.0-1", "1.2.0", "1.2.0", "1.3.0",
          "1", "1"⟩,
        ["extra"], "src", some ["1.3.0-1", "abc", "1.2.0-1"], none,
        fun _ _ _ _ _ _ => none, fun _ _ _ _ _ => none⟩ = .error () :=
  ⟨rfl, rfl⟩

/-! ## Claims C5 and C6 — retry loop -/

theorem retryLoop_attempts_le (resp : Nat → HttpResponse)
    (retryCodes : List Nat) (wait : HttpResponse → Nat → Nat)
    (maxAttempts : Nat) :
    ∀ remaining attempt,
    (retryLoop resp retryCodes wait maxAttempts remaining attempt).attempts ≤
      remaining := by
  intro remaining
  induction remaining with
  | zero => intro attempt; simp [retryLoop]
  | succ rem ih =>
    intro attempt
    simp only [retryLoop]
    split
    · simp
    · split
      · have := ih (attempt + 1)
        simp only [FetchTrace.attempts]
        omega
      · simp

theorem retryLoop_sleeps_eq (resp : Nat → HttpResponse)
    (retryCodes : List Nat) (wait : HttpResponse → Nat → Nat)
    (maxAttempts : Nat) :
    ∀ remaining attempt,
    (retryLoop resp retryCodes wait maxAttempts remaining attempt).sleeps =
      (List.range' attempt
        (retryLoop resp retryCodes wait maxAttempts remaining
          attempt).sleeps.length).map (fun i => wait (resp i) i) := by
  intro remaining
  induction remaining with
  | zero => intro attempt; simp [retryLoop]
  | succ rem ih =>
    intro attempt
    simp only [retryLoop]
    split
    · simp
    · split
      · simp only [List.length_cons, List.range'_succ, List.map_cons,
          List.cons.injEq]
        exact ⟨trivial, ih (attempt + 1)⟩
      · simp

/-- C5 (amended): every client makes at most `max_attempts` HTTP attempts per
single-page call.  The GitHub client picks each sleep by the precedence
retry-after header > (403 with `x-ratelimit-remaining = "0"`) seconds until
`x-ratelimit-reset` > exponential backoff `backoff ** attempt`, applied at the
attempt the sleep precedes; the GitLab (and ArchLinux) clients always sleep
the exponential backoff.  Given `[429, 429, 200]` a client makes exactly 3
attempts, sleeping 1 s and 2 s before the second and third; given
`[500, 500, 500]` with `max_attempts = 3` it fails (`None`) after the third
attempt with no further sleep. -/
theorem fetch_retry_backoff :
    (∀ resp m b n, (githubGetSinglePage resp m b n).attempts ≤ m) ∧
    (∀ resp m b, (gitlabGet resp m b).attempts ≤ m) ∧
    (∀ resp m b, (archlinuxGet resp m b).attempts ≤ m) ∧
    (∀ (r : HttpResponse) (a b n w : Nat), r.retryAfter = some w →
      githubWait r a b n = w) ∧
    (∀ (r : HttpResponse) (a b n : Nat), r.retryAfter = none →
      r.status = 403 → r.rlRemaining = some "0" →
      githubWait r a b n = r.rlReset - n) ∧
    (∀ (r : HttpResponse) (a b n : Nat), r.retryAfter = none →
      ¬(r.status = 403 ∧ r.rlRemaining = some "0") →
      githubWait r a b n = b ^ a) ∧
    (∀ resp m b n, (githubGetSinglePage resp m b n).sleeps =
      (List.range (githubGetSinglePage resp m b n).sleeps.length).map
        (fun i => githubWait (resp i) i b n)) ∧
    (∀ resp m b, (gitlabGet resp m b).sleeps =
      (List.range (gitlabGet resp m b).sleeps.length).map (fun i => b ^ i)) ∧
    (githubGetSinglePage
      (fun i => if i < 2 then ⟨429, none, none, 0⟩ else ⟨200, none, none, 0⟩)
      3 2 0 = ⟨true, [1, 2], 3⟩) ∧
    (githubGetSinglePage (fun _ => ⟨500, none, none, 0⟩) 3 2 0 =
      ⟨false, [1, 2], 3⟩) := by
  refine ⟨fun resp m b n => retryLoop_attempts_le _ _ _ _ m 0,
    fun resp m b => retryLoop_attempts_le _ _ _ _ m 0,
    fun resp m b => retryLoop_attempts_le _ _ _ _ m 0,
    ?_, ?_, ?_, ?_, ?_, by decide, by decide⟩
  · intro r a b n w h
    simp [githubWait, h]
  · intro r a b n h h403 hrem
    simp [githubWait, h, h403, hrem]
  · intro r a b n h hnot
    simp only [githubWait, h]
    rw [if_neg hnot]
  · intro resp m b n
    have := retryLoop_sleeps_eq resp githubRetryStatusCodes
      (fun r a => githubWait r a b n) m m 0
    simpa [githubGetSinglePage, List.range_eq_range'] using this
  · intro resp m b
    have := retryLoop_sleeps_eq resp gitlabRetryStatusCodes
      (fun _ a => backoffWait a b) m m 0
    simpa [gitlabGet, List.range_eq_range', backoffWait] using this

/-- Witness for C5: the wait-precedence clauses applied at concrete
responses. -/
theorem fetch_retry_backoff_witness :
    githubWait ⟨429, some 10, none, 0⟩ 0 2 0 = 10 ∧
    githubWait ⟨403, none, some "0", 500⟩ 0 2 100 =
      (HttpResponse.mk 403 none (some "0") 500).rlReset - 100 ∧
    githubWait ⟨429, none, none, 0⟩ 2 2 0 = 2 ^ 2 ∧
    (githubGetSinglePage (fun _ => ⟨500, none, none, 0⟩) 3 2 0).attempts ≤ 3 :=
  ⟨fetch_retry_backoff.2.2.2.1 _ 0 2 0 10 rfl,
   fetch_retry_backoff.2.2.2.2.1 _ 0 2 100 rfl rfl rfl,
   fetch_retry_backoff.2.2.2.2.2.1 _ 2 2 0 rfl (by decide),
   fetch_retry_backoff.1 _ 3 2 0⟩

/-- Counterexample to C5 as stated: the wait-precedence rule does not hold
for every client.  The GitLab client ignores a present `retry-after: 10`
header on a 429 and sleeps the exponential backoff 1 s instead; and the
GitHub client applies the rate-limit-reset rule only when
`x-ratelimit-remaining` is `"0"` — for a 403 with remaining `"1"` and reset
400 s away it sleeps the backoff 1 s, not 400 s. -/
theorem fetch_retry_backoff_counterexample :
    (gitlabGet (fun _ => ⟨429, some 10, none, 0⟩) 3 2).sleeps = [1, 2] ∧
    (1 : Nat) ≠ 10 ∧
    (githubGetSinglePage (fun _ => ⟨403, none, some "1", 500⟩) 3 2 100).sleeps =
      [1, 2] ∧
    (1 : Nat) ≠ 500 - 100 := by
  exact ⟨by decide, by decide, by decide, by decide⟩

/-- C6: the retryable status sets are exactly {429, 500, 502, 503, 504} for
GitLab and ArchLinux and additionally 403 for GitHub; any other error status
(≥ 400, `raise_for_status` raises) terminates the loop at once: failure with
no sleep and no further attempt. -/
theorem retry_status_codes_spec :
    (∀ s : Nat, s ∈ githubRetryStatusCodes ↔
      s = 403 ∨ s = 429 ∨ s = 500 ∨ s = 502 ∨ s = 503 ∨ s = 504) ∧
    (∀ s : Nat, s ∈ gitlabRetryStatusCodes ↔
      s = 429 ∨ s = 500 ∨ s = 502 ∨ s = 503 ∨ s = 504) ∧
    (∀ s : Nat, s ∈ archlinuxRetryStatusCodes ↔
      s = 429 ∨ s = 500 ∨ s = 502 ∨ s = 503 ∨ s = 504) ∧
    403 ∈ githubRetryStatusCodes ∧ 403 ∉ gitlabRetryStatusCodes ∧
    403 ∉ archlinuxRetryStatusCodes ∧
    (∀ (resp : Nat → HttpResponse) (retryCodes : List Nat)
      (wait : HttpResponse → Nat → Nat) (maxAttempts remaining attempt : Nat),
      400 ≤ (resp attempt).status → (resp attempt).status ∉ retryCodes →
      retryLoop resp retryCodes wait maxAttempts (remaining + 1) attempt =
        ⟨false, [], 1⟩) := by
  refine ⟨?_, ?_, ?_, by decide, by decide, by decide, ?_⟩
  · intro s
    simp [githubRetryStatusCodes]
  · intro s
    simp [gitlabRetryStatusCodes]
  · intro s
    simp [archlinuxRetryStatusCodes]
  · intro resp retryCodes wait maxAttempts remaining attempt h400 hnot
    simp only [retryLoop]
    rw [if_neg (by omega), if_neg (fun hc => hnot hc.1)]

/-- Witness for C6: a 404 on the GitLab client fails immediately with one
attempt and no sleep. -/
theorem retry_status_codes_spec_witness :
    (404 ∈ gitlabRetryStatusCodes ↔
      404 = 429 ∨ 404 = 500 ∨ 404 = 502 ∨ 404 = 503 ∨ 404 = 504) ∧
    retryLoop (fun _ => ⟨404, none, none, 0⟩) gitlabRetryStatusCodes
      (fun _ a => backoffWait a 2) 3 3 0 = ⟨false, [], 1⟩ :=
  ⟨retry_status_codes_spec.2.1 404,
   retry_status_codes_spec.2.2.2.2.2.2 _ _ _ 3 2 0 (by decide) (by decide)⟩

/-! ## Claim C7 — GitHub pagination -/

theorem githubPaginate_pages_le (fetch : String → Option Page)
    (pageSize : Nat) :
    ∀ (url : Option String) (pagesLeft : Nat) (results : List Entry),
    (githubPaginate fetch pageSize url pagesLeft results).2.length ≤
      pagesLeft := by
  intro url pagesLeft
  induction pagesLeft generalizing url with
  | zero =>
    intro results
    rcases url with _ | u <;> simp [githubPaginate]
  | succ rem ih =>
    intro results
    rcases url with _ | u
    · simp [githubPaginate]
    · simp only [githubPaginate]
      rcases fetch u with _ | page
      · simp
      · simp only
        split
        · simp
        · split
          · simp
          · have := ih page.nextUrl (results ++ page.items)
            rcases hrec : githubPaginate fetch pageSize page.nextUrl rem
              (results ++ page.items) with ⟨res, vis⟩
            rw [hrec] at this
            simpa using Nat.add_le_add_right this 1

theorem githubPaginate_result_join (fetch : String → Option Page)
    (pageSize : Nat) :
    ∀ (url : Option String) (pagesLeft : Nat) (results : List Entry),
    (githubPaginate fetch pageSize url pagesLeft results).1 = none ∨
    (githubPaginate fetch pageSize url pagesLeft results).1 =
      some (results ++
        (githubPaginate fetch pageSize url pagesLeft results).2.flatten) := by
  intro url pagesLeft
  induction pagesLeft generalizing url with
  | zero =>
    intro results
    rcases url with _ | u <;> simp [githubPaginate]
  | succ rem ih =>
    intro results
    rcases url with _ | u
    · simp [githubPaginate]
    · simp only [githubPaginate]
      rcases fetch u with _ | page
      · simp
      · simp only
        split
        · simp
        · split
          · simp
          · have := ih page.nextUrl (results ++ page.items)
            rcases hrec : githubPaginate fetch pageSize page.nextUrl rem
              (results ++ page.items) with ⟨res, vis⟩
            rw [hrec] at this
            rcases this with h | h
            · left; simpa using h
            · right; simpa using h

/-- C7: the paginating GitHub client follows the `rel="next"` URL page by
page, fetches at most 8 pages per call, stops — returning the accumulated
items — when a page has no next link and fewer items than the requested page
size, and concatenates the items of all fetched pages in request order
(a successful result is exactly the join of the visited pages' item lists).
The final conjuncts run a concrete three-page chain and a self-linking page
that is cut off after exactly 8 fetches. -/
theorem github_pagination_spec :
    (∀ (fetch : String → Option Page) (pageSize : Nat) (endpoint : String),
      (githubGet fetch pageSize endpoint).2.length ≤ 8) ∧
    (∀ (fetch : String → Option Page) (pageSize : Nat) (endpoint : String)
      (r : List Entry),
      (githubGet fetch pageSize endpoint).1 = some r →
      r = (githubGet fetch pageSize endpoint).2.flatten) ∧
    (∀ (fetch : String → Option Page) (pageSize pagesLeft : Nat)
      (url : String) (results : List Entry) (page : Page),
      fetch url = some page → page.items ≠ [] → page.nextUrl = none →
      page.items.length < pageSize →
      githubPaginate fetch pageSize (some url) (pagesLeft + 1) results =
        (some (results ++ page.items), [page.items])) ∧
    (githubGet
      (fun u => if u = "p1" then some ⟨["a", "b"], some "p2"⟩
        else if u = "p2" then some ⟨["c", "d"], some "p3"⟩
        else if u = "p3" then some ⟨["e"], none⟩
        else none) 2 "p1" =
      (some ["a", "b", "c", "d", "e"], [["a", "b"], ["c", "d"], ["e"]])) ∧
    (githubGet (fun _ => some ⟨["x"], some "u"⟩) 1 "u" =
      (some ["x", "x", "x", "x", "x", "x", "x", "x"],
        List.replicate 8 ["x"])) := by
  refine ⟨fun fetch ps e => githubPaginate_pages_le fetch ps _ 8 [],
    ?_, ?_, by decide, by decide⟩
  · intro fetch ps e r h
    rcases githubPaginate_result_join fetch ps (some e) 8 [] with h2 | h2
    · rw [githubGet] at h
      rw [h] at h2
      exact absurd h2 (by simp)
    · rw [githubGet] at h ⊢
      have h3 := h.symm.trans h2
      simpa using h3
  · intro fetch ps pagesLeft url results page hf hne hnext hsize
    simp [githubPaginate, hf, hne, hnext, hsize]

/-- Witness for C7: the stop condition and join property applied at the
concrete three-page chain. -/
theorem github_pagination_spec_witness :
    (githubPaginate
      (fun u => if u = "p3" then some ⟨["e"], none⟩ else none) 2
      (some "p3") 8 ["a", "b", "c", "d"] =
      (some (["a", "b", "c", "d"] ++ ["e"]), [["e"]])) ∧
    (["a", "b", "c", "d", "e"] : List Entry) =
      (githubGet
        (fun u => if u = "p1" then some ⟨["a", "b"], some "p2"⟩
          else if u = "p2" then some ⟨["c", "d"], some "p3"⟩
          else if u = "p3" then some ⟨["e"], none⟩
          else none) 2 "p1").2.flatten :=
  ⟨github_pagination_spec.2.2.1 _ 2 7 "p3" ["a", "b", "c", "d"] ⟨["e"], none⟩
    rfl (by decide) rfl (by decide),
   github_pagination_spec.2.1 _ 2 "p1" ["a", "b", "c", "d", "e"] (by decide)⟩

/-! ## Claim C8 — fuzzy tag matcher -/

theorem fuzzScore_den_pos (a b : String) : 0 < (fuzzScore a b).2 := by
  simp only [fuzzScore]
  split
  · simp
  · next h => simpa using Nat.pos_of_ne_zero h

theorem scoreLtB_irrefl (x : Nat × Nat) : scoreLtB x x = false := by
  simp [scoreLtB]

theorem scoreLtB_asymm {x y : Nat × Nat} (h : scoreLtB x y = true) :
    scoreLtB y x = false := by
  simp [scoreLtB] at h ⊢
  omega

theorem scoreLtB_ge_trans {x y z : Nat × Nat} (hy : 0 < y.2)
    (hxy : scoreLtB x y = false) (hyz : scoreLtB y z = false) :
    scoreLtB x z = false := by
  simp only [scoreLtB, decide_eq_false_iff_not, Nat.not_lt] at hxy hyz ⊢
  have h1 : z.1 * y.2 * x.2 ≤ y.1 * z.2 * x.2 := Nat.mul_le_mul_right _ hyz
  have h2 : y.1 * x.2 * z.2 ≤ x.1 * y.2 * z.2 := Nat.mul_le_mul_right _ hxy
  have h3 : z.1 * x.2 * y.2 ≤ x.1 * z.2 * y.2 := by
    calc z.1 * x.2 * y.2 = z.1 * y.2 * x.2 := by ring
    _ ≤ y.1 * z.2 * x.2 := h1
    _ = y.1 * x.2 * z.2 := by ring
    _ ≤ x.1 * y.2 * z.2 := h2
    _ = x.1 * z.2 * y.2 := by ring
  exact Nat.le_of_mul_le_mul_right h3 hy

theorem pickBetter_foldl_spec :
    ∀ (t : List (String × (Nat × Nat))) (h : String × (Nat × Nat)),
    (∀ p ∈ h :: t, 0 < p.2.2) →
    t.foldl pickBetter h ∈ h :: t ∧
    ∀ p ∈ h :: t, scoreLtB (t.foldl pickBetter h).2 p.2 = false := by
  intro t
  induction t with
  | nil =>
    intro h _
    refine ⟨List.mem_cons_self h [], ?_⟩
    intro p hp
    rw [List.mem_singleton] at hp
    subst hp
    exact scoreLtB_irrefl _
  | cons p t' ih =>
    intro h hpos
    have hp2 : pickBetter h p = p ∨ pickBetter h p = h := by
      simp only [pickBetter]
      split
      · exact Or.inl rfl
      · exact Or.inr rfl
    have hpos' : ∀ q ∈ pickBetter h p :: t', 0 < q.2.2 := by
      intro q hq
      rcases List.mem_cons.mp hq with hq | hq
      · subst hq
        rcases hp2 with h2 | h2 <;> rw [h2]
        · exact hpos p (by simp)
        · exact hpos h (by simp)
      · exact hpos q (by simp [hq])
    obtain ⟨hmem, hmax⟩ := ih (pickBetter h p) hpos'
    have hfold : (p :: t').foldl pickBetter h = t'.foldl pickBetter (pickBetter h p) := rfl
    constructor
    · rw [hfold]
      rcases List.mem_cons.mp hmem with hq | hq
      · rw [hq]
        rcases hp2 with h2 | h2 <;> rw [h2] <;> simp
      · simp [hq]
    · intro q hq
      rw [hfold]
      have hres_pick := hmax (pickBetter h p) (List.mem_cons_self _ _)
      rcases List.mem_cons.mp hq with hq | hq
      · -- q = h
        subst hq
        by_cases hc : scoreLtB q.2 p.2
        · have hpk : pickBetter q p = p := by simp [pickBetter, hc]
          have hge : scoreLtB p.2 q.2 = false := scoreLtB_asymm hc
          have h2 : (pickBetter q p).2 = p.2 := by rw [hpk]
          rw [h2] at hres_pick
          exact scoreLtB_ge_trans (hpos p (by simp)) hres_pick hge
        · have hpk : pickBetter q p = q := by
            simp only [pickBetter]
            rw [if_neg (by simp [hc])]
          have h2 : (pickBetter q p).2 = q.2 := by rw [hpk]
          rw [h2] at hres_pick
          exact hres_pick
      · rcases List.mem_cons.mp hq with hq | hq
        · -- q = p
          subst hq
          by_cases hc : scoreLtB h.2 q.2
          · have hpk : pickBetter h q = q := by simp [pickBetter, hc]
            have h2 : (pickBetter h q).2 = q.2 := by rw [hpk]
            rw [h2] at hres_pick
            exact hres_pick
          · have hpk : pickBetter h q = h := by
              simp only [pickBetter]
              rw [if_neg (by simp [hc])]
            have hge : scoreLtB h.2 q.2 = false := by simp [hc]
            have h2 : (pickBetter h q).2 = h.2 := by rw [hpk]
            rw [h2] at hres_pick
            exact scoreLtB_ge_trans (hpos h (by simp)) hres_pick hge
        · -- q ∈ t'
          exact hmax q (by simp [hq])

theorem dictInsert_mem {l : List (String × String)} {k v : String}
    {p : String × String} (h : p ∈ dictInsert l k v) :
    p ∈ l ∨ p = (k, v) := by
  simp only [dictInsert] at h
  split at h
  · rcases List.mem_map.mp h with ⟨q, hq, hfq⟩
    by_cases hk : q.1 = k
    · right
      rw [← hfq]
      simp [hk]
    · left
      rw [← hfq]
      simpa [hk] using hq
  · rcases List.mem_append.mp h with h | h
    · exact Or.inl h
    · right
      simpa using h

theorem dictInsert_keys (l : List (String × String)) (k v : String) :
    (dictInsert l k v).map (fun p => p.1) = l.map (fun p => p.1) ∨
    (dictInsert l k v).map (fun p => p.1) = l.map (fun p => p.1) ++ [k] := by
  simp only [dictInsert]
  split
  · left
    rw [List.map_map]
    refine List.map_congr_left ?_
    intro p _
    simp only [Function.comp]
    split <;> rfl
  · right
    simp

theorem mem_keys_dictInsert_self (l : List (String × String)) (k v : String) :
    k ∈ (dictInsert l k v).map (fun p => p.1) := by
  simp only [dictInsert]
  split
  · next hany =>
    rcases List.any_eq_true.mp hany with ⟨q, hq, hqk⟩
    simp only [decide_eq_true_eq] at hqk
    refine List.mem_map.mpr ⟨(q.1, v), ?_, hqk⟩
    refine List.mem_map.mpr ⟨q, hq, ?_⟩
    simp [hqk]
  · simp

theorem mem_keys_dictInsert_of_mem {l : List (String × String)}
    {k v k' : String} (h : k' ∈ l.map (fun p => p.1)) :
    k' ∈ (dictInsert l k v).map (fun p => p.1) := by
  rcases dictInsert_keys l k v with he | he <;> rw [he] <;> simp [h]

theorem buildNormalizedTags_inv (Q : String × String → Prop) :
    ∀ (ts : List String) (acc : List (String × String)),
    (∀ p ∈ acc, Q p) → (∀ t ∈ ts, Q (normalize_tag t, t)) →
    ∀ p ∈ ts.foldl (fun a t => dictInsert a (normalize_tag t) t) acc, Q p := by
  intro ts
  induction ts with
  | nil => intro acc hacc _ p hp; exact hacc p hp
  | cons t ts' ih =>
    intro acc hacc hts p hp
    refine ih (dictInsert acc (normalize_tag t) t) ?_
      (fun t' ht' => hts t' (by simp [ht'])) p hp
    intro q hq
    rcases dictInsert_mem hq with hq | hq
    · exact hacc q hq
    · rw [hq]
      exact hts t (by simp)

theorem buildNormalizedTags_keys_complete :
    ∀ (ts : List String) (acc : List (String × String)) (k : String),
    (k ∈ acc.map (fun p => p.1) ∨ ∃ t ∈ ts, normalize_tag t = k) →
    k ∈ (ts.foldl (fun a t => dictInsert a (normalize_tag t) t) acc).map
      (fun p => p.1) := by
  intro ts
  induction ts with
  | nil =>
    intro acc k h
    rcases h with h | ⟨t, ht, _⟩
    · exact h
    · exact absurd ht (List.not_mem_nil t)
  | cons t ts' ih =>
    intro acc k h
    refine ih (dictInsert acc (normalize_tag t) t) k ?_
    rcases h with h | ⟨t', ht', hk⟩
    · exact Or.inl (mem_keys_dictInsert_of_mem h)
    · rcases List.mem_cons.mp ht' with ht' | ht'
      · subst ht'
        subst hk
        exact Or.inl (mem_keys_dictInsert_self _ _ _)
      · exact Or.inr ⟨t', ht', hk⟩

theorem extractBest_spec (cleaned : String) (keys : List String)
    (threshold : Nat) (best : String)
    (hres : extractBest cleaned keys threshold = some best) :
    best ∈ keys ∧ scoreGeB (fuzzScore cleaned best) threshold = true ∧
    ∀ k ∈ keys,
      scoreLtB (fuzzScore cleaned best) (fuzzScore cleaned k) = false := by
  simp only [extractBest] at hres
  set scored := keys.map (fun k => (k, fuzzScore cleaned k)) with hscored
  set filtered := scored.filter (fun p => scoreGeB p.2 threshold) with hfiltered
  have hsub : ∀ p ∈ filtered, p ∈ scored ∧ scoreGeB p.2 threshold = true := by
    intro p hp
    rw [hfiltered] at hp
    exact ⟨(List.mem_filter.mp hp).1, (List.mem_filter.mp hp).2⟩
  have hshape : ∀ p ∈ scored, p.1 ∈ keys ∧ p.2 = fuzzScore cleaned p.1 := by
    intro p hp
    rw [hscored] at hp
    rcases List.mem_map.mp hp with ⟨k, hk, hpk⟩
    rw [← hpk]
    exact ⟨hk, rfl⟩
  rcases hf : filtered with _ | ⟨h, t⟩
  · rw [hf] at hres
    exact absurd hres (by simp)
  · rw [hf] at hres
    simp only [Option.some.injEq] at hres
    have hpos : ∀ p ∈ h :: t, 0 < p.2.2 := by
      intro p hp
      rw [← hf] at hp
      have := (hshape p (hsub p hp).1).2
      rw [this]
      exact fuzzScore_den_pos _ _
    obtain ⟨hmem, hmax⟩ := pickBetter_foldl_spec t h hpos
    set pstar := t.foldl pickBetter h with hpstar
    have hpf : pstar ∈ filtered := by rw [hf]; exact hmem
    have hps := hsub pstar hpf
    have hpsh := hshape pstar hps.1
    have hbest1 : pstar.1 = best := hres
    have hbest2 : pstar.2 = fuzzScore cleaned best := by
      rw [hpsh.2, hbest1]
    refine ⟨hbest1 ▸ hpsh.1, ?_, ?_⟩
    · rw [← hbest2]
      exact hps.2
    · intro k hk
      have hks : (k, fuzzScore cleaned k) ∈ scored := by
        rw [hscored]
        exact List.mem_map.mpr ⟨k, hk, rfl⟩
      by_cases hge : scoreGeB (fuzzScore cleaned k) threshold = true
      · have hkf : (k, fuzzScore cleaned k) ∈ filtered := by
          rw [hfiltered]
          exact List.mem_filter.mpr ⟨hks, by simpa using hge⟩
        rw [hf] at hkf
        have := hmax _ hkf
        rw [← hbest2]
        exact this
      · -- k scored below the cutoff while `best` meets it
        have hklt : (fuzzScore cleaned k).1 <
            threshold * (fuzzScore cleaned k).2 := by
          simpa [scoreGeB, Nat.not_le] using hge
        have hbge : threshold * (fuzzScore cleaned best).2 ≤
            (fuzzScore cleaned best).1 := by
          have := hps.2
          rw [hbest2] at this
          simpa [scoreGeB] using this
        simp only [scoreLtB, decide_eq_false_iff_not, Nat.not_lt]
        calc (fuzzScore cleaned k).1 * (fuzzScore cleaned best).2
            ≤ threshold * (fuzzScore cleaned k).2 *
              (fuzzScore cleaned best).2 :=
              Nat.mul_le_mul_right _ (Nat.le_of_lt hklt)
          _ = threshold * (fuzzScore cleaned best).2 *
              (fuzzScore cleaned k).2 := by ring
          _ ≤ (fuzzScore cleaned best).1 * (fuzzScore cleaned k).2 :=
              Nat.mul_le_mul_right _ hbge

/-- C8: `get_closest_package_tag` returns the original spelling of the
candidate whose normalized form scores highest under the (modelled) fuzzy
matching, provided that score meets the threshold, and `none` otherwise:
a `some t` result always lies in the candidate list, its normalized score
meets the threshold, and no candidate's normalized form scores strictly
higher.  In particular `closest("48.0-1", ["48.0","48.1","48.alpha"]) =
"48.0"`, `closest("1-6.3.90-1", ["v6.3.90","v6.3.91"]) = "v6.3.90"`, and
`closest("4.0", ["1.0","2.0","3.0"]) = none`. -/
theorem get_closest_package_tag_spec :
    get_closest_package_tag "48.0-1" ["48.0", "48.1", "48.alpha"] = some "48.0" ∧
    get_closest_package_tag "1-6.3.90-1" ["v6.3.90", "v6.3.91"] = some "v6.3.90" ∧
    get_closest_package_tag "4.0" ["1.0", "2.0", "3.0"] = none ∧
    (∀ (q : String) (tags : List String) (threshold : Nat) (t : String),
      get_closest_package_tag q tags threshold = some t →
      t ∈ tags ∧
      scoreGeB (fuzzScore (normalize_tag q) (normalize_tag t)) threshold =
        true ∧
      ∀ t' ∈ tags,
        scoreLtB (fuzzScore (normalize_tag q) (normalize_tag t))
          (fuzzScore (normalize_tag q) (normalize_tag t')) = false) := by
  refine ⟨by decide, by decide, by decide, ?_⟩
  intro q tags threshold t hres
  simp only [get_closest_package_tag] at hres
  set dict := buildNormalizedTags tags with hdict
  rcases hx : extractBest (normalize_tag q) (dict.map (fun p => p.1))
      threshold with _ | best
  · rw [hx] at hres
    exact absurd hres (by simp)
  · rw [hx] at hres
    simp only [Option.map_eq_some'] at hres
    rcases hres with ⟨p, hfind, hpt⟩
    have hpdict : p ∈ dict := List.mem_of_find?_eq_some hfind
    have hpkey : p.1 = best := by
      have := List.find?_some hfind
      simpa using this
    have hQ : ∀ r ∈ dict, r.1 = normalize_tag r.2 ∧ r.2 ∈ tags := by
      rw [hdict]
      exact buildNormalizedTags_inv _ tags [] (by simp)
        (fun t' _ => ⟨rfl, by assumption⟩)
    have hp := hQ p hpdict
    obtain ⟨hbk, hge, hmax⟩ := extractBest_spec _ _ _ _ hx
    have hnt : normalize_tag t = best := by
      rw [← hpt, ← hp.1, hpkey]
    refine ⟨hpt ▸ hp.2, ?_, ?_⟩
    · rw [hnt]
      exact hge
    · intro t' ht'
      have hkey' : normalize_tag t' ∈ dict.map (fun p => p.1) := by
        rw [hdict]
        exact buildNormalizedTags_keys_complete tags [] _
          (Or.inr ⟨t', ht', rfl⟩)
      have := hmax _ hkey'
      rw [hnt]
      exact this

/-- Witness for C8: the structural guarantee applied at the claim's first
example. -/
theorem get_closest_package_tag_spec_witness :
    "48.0" ∈ ["48.0", "48.1", "48.alpha"] ∧
    scoreGeB (fuzzScore (normalize_tag "48.0-1") (normalize_tag "48.0")) 70 =
      true ∧
    ∀ t' ∈ ["48.0", "48.1", "48.alpha"],
      scoreLtB (fuzzScore (normalize_tag "48.0-1") (normalize_tag "48.0"))
        (fuzzScore (normalize_tag "48.0-1") (normalize_tag t')) = false :=
  get_closest_package_tag_spec.2.2.2 "48.0-1" ["48.0", "48.1", "48.alpha"]
    70 "48.0" (by decide)

/-! ## Claim C10 — epoch-colon normalization -/

/-- C10: the epoch-colon normalization (both the `replace(":", "-")` used for
tag comparison in `find_intermediate_tags` and the `replace("1:", "1-")`
rewrite of `get_package_tags`) is idempotent, and
`normalize("1:1.2-1") = "1-1.2-1"`. -/
theorem epoch_colon_normalization_idempotent :
    (∀ x : String, normalizeColon (normalizeColon x) = normalizeColon x) ∧
    normalizeColon "1:1.2-1" = "1-1.2-1" ∧
    (∀ x : String, replaceOneColon (replaceOneColon x) = replaceOneColon x) ∧
    replaceOneColon "1:1.2-1" = "1-1.2-1" := by
  refine ⟨?_, by decide, ?_, by decide⟩
  · intro x
    show String.mk ((x.data.map _).map _) = String.mk (x.data.map _)
    rw [List.map_map]
    congr 1
    exact List.map_congr_left
      (fun c _ => by by_cases hc : c = ':' <;> simp [hc, Function.comp])
  · intro x
    exact congrArg String.mk (replaceOneColonAux_idem x.data)

end Archlog
